import Mathlib

/-!
# Verification of the pyretic netcore policy algebra

Shallow embedding of `pyretic/core/netcore.py`: predicates (boolean packet
classifiers), policies (packet → multiset of packets), the network-state
propagation protocol, and the query primitives.

Conventions of the embedding:
* A packet (external collaborator, modelled from the spec) is an association
  list from header-field names to value stacks (head = current value).
  Field values are opaque comparable tokens, modelled as `Int` (the sentinel
  outport value `-1` requires a signed carrier).
* Python's `Counter` multisets are association lists `Cnt α` from keys to
  counts, read through the `cnt` lookup.  A Python dict/Counter holds each
  key once, so the operations update the first (unique) matching entry.
* A Python expression that raises is modelled by `Option`/`none` (exceptions
  propagate through `do`-bind exactly as they propagate dynamically).
* Every `NetworkEvaluated` node carries its `_network` attribute as an
  `Option Network` field (fresh nodes hold `none`).
-/

namespace Netcore

/-! ## Packets (modelled from the spec: the packet collaborator) -/

/-- Modelled from the spec: a packet maps each header field to a stack of
values, innermost (list head) = current; a field absent from the packet is a
distinct observable state. The concrete `Packet` class lives outside the
specified core. -/
abbrev Packet := List (String × List Int)

/-- The stack of values held for field `f` (empty list when absent). -/
def Packet.getStack : Packet → String → List Int
  | [], _ => []
  | e :: rest, f => if e.1 = f then e.2 else Packet.getStack rest f

/-- `packet[field]`: the current (top) value; `none` models the `KeyError`
raised when the field is absent. -/
def Packet.get (p : Packet) (f : String) : Option Int :=
  (p.getStack f).head?

/-- Modelled from the spec: `push` prepends a value onto the field's stack
(installing the field when absent). -/
def Packet.push1 : Packet → String → Int → Packet
  | [], f, v => [(f, [v])]
  | e :: rest, f, v =>
    if e.1 = f then (e.1, v :: e.2) :: rest else e :: Packet.push1 rest f v

/-- Modelled from the spec: `pop` removes the current value of the field. -/
def Packet.pop1 : Packet → String → Packet
  | [], _ => []
  | e :: rest, f =>
    if e.1 = f then (e.1, e.2.tail) :: rest else e :: Packet.pop1 rest f

/-- `packet.pushmany(map)`: push every `(field, value)` pair. -/
def Packet.pushmany (p : Packet) (m : List (String × Int)) : Packet :=
  m.foldl (fun q fv => q.push1 fv.1 fv.2) p

/-- `packet.popmany(fields)`: pop every listed field. -/
def Packet.popmany (p : Packet) (fs : List String) : Packet :=
  fs.foldl (fun q f => q.pop1 f) p

/-- Modelled from the spec: enumeration of the fields present on the packet
(`packet.available_fields()`). -/
def Packet.availableFields (p : Packet) : List String :=
  (p.filter (fun e => !e.2.isEmpty)).map (fun e => e.1)

/-! ## Counters (Python `collections.Counter`) -/

/-- A multiset over `α`, as an association list from key to multiplicity. -/
abbrev Cnt (α : Type) := List (α × Nat)

/-- Count held for key `x` (0 when absent) — `Counter.__getitem__`. -/
def cnt {α : Type} [DecidableEq α] : Cnt α → α → Nat
  | [], _ => 0
  | e :: rest, x => if e.1 = x then e.2 else cnt rest x

/-- Add `k` to the count of `x` (Python `Counter` addition / `update`). -/
def cadd {α : Type} [DecidableEq α] : Cnt α → α → Nat → Cnt α
  | [], x, k => [(x, k)]
  | e :: rest, x, k =>
    if e.1 = x then (e.1, e.2 + k) :: rest else e :: cadd rest x k

/-- Overwrite the count of `x` with `k` (Python `c[x] = k` assignment). -/
def cset {α : Type} [DecidableEq α] : Cnt α → α → Nat → Cnt α
  | [], x, k => [(x, k)]
  | e :: rest, x, k =>
    if e.1 = x then (e.1, k) :: rest else e :: cset rest x k

/-- `Counter(list)`: count the occurrences of every element. -/
def cofList {α : Type} [DecidableEq α] : List α → Cnt α
  | [] => []
  | x :: xs => cadd (cofList xs) x 1

/-- `c.update(rc)`: add every count of `rc` into `c`. -/
def cupdate {α : Type} [DecidableEq α] (c rc : Cnt α) : Cnt α :=
  rc.foldl (fun acc e => cadd acc e.1 e.2) c

theorem cnt_cadd {α : Type} [DecidableEq α] (c : Cnt α) (x y : α) (k : Nat) :
    cnt (cadd c x k) y = cnt c y + (if y = x then k else 0) := by
  induction c with
  | nil =>
    by_cases h : y = x
    · subst h; simp [cadd, cnt]
    · have h' : ¬ (x = y) := fun hc => h hc.symm
      simp [cadd, cnt, h, h']
  | cons e rest ih =>
    by_cases hex : e.1 = x
    · by_cases hey : e.1 = y
      · have hyx : y = x := by rw [← hey, hex]
        simp [cadd, cnt, hex, hey, hyx]
      · have hyx : ¬ (y = x) := fun hc => hey (by rw [hc, hex])
        have hxy : ¬ (x = y) := fun hc => hyx hc.symm
        simp [cadd, cnt, hex, hey, hyx, hxy]
    · by_cases hey : e.1 = y
      · have hyx : ¬ (y = x) := fun hc => hex (by rw [hey, hc])
        simp [cadd, cnt, hex, hey, hyx]
      · simp [cadd, cnt, hex, hey, ih]

theorem cnt_cset {α : Type} [DecidableEq α] (c : Cnt α) (x y : α) (k : Nat) :
    cnt (cset c x k) y = if y = x then k else cnt c y := by
  induction c with
  | nil =>
    by_cases h : y = x
    · subst h; simp [cset, cnt]
    · have h' : ¬ (x = y) := fun hc => h hc.symm
      simp [cset, cnt, h, h']
  | cons e rest ih =>
    by_cases hex : e.1 = x
    · by_cases hey : e.1 = y
      · have hyx : y = x := by rw [← hey, hex]
        simp [cset, cnt, hex, hey, hyx]
      · have hyx : ¬ (y = x) := fun hc => hey (by rw [hc, hex])
        have hxy : ¬ (x = y) := fun hc => hyx hc.symm
        simp [cset, cnt, hex, hey, hyx, hxy]
    · by_cases hey : e.1 = y
      · have hyx : ¬ (y = x) := fun hc => hex (by rw [hey, hc])
        simp [cset, cnt, hex, hey, hyx]
      · simp [cset, cnt, hex, hey, ih]

theorem cnt_cofList {α : Type} [DecidableEq α] (l : List α) (x : α) :
    cnt (cofList l) x = l.count x := by
  induction l with
  | nil => simp [cofList, cnt]
  | cons a l ih =>
    by_cases h : x = a
    · subst h; simp [cofList, cnt_cadd, ih, List.count_cons]
    · have h' : ¬ (a = x) := fun hc => h hc.symm
      simp [cofList, cnt_cadd, ih, List.count_cons, h, h']

/-! ## Network state (modelled from the spec: topology collaborator) -/

/-- A `(switch, port)` boundary location (`pyretic.core.network.Location`). -/
structure Location where
  switch : Int
  port_no : Int
deriving DecidableEq

/-- Modelled from the spec: the externally supplied, immutable-per-version
network-state object, exposing the boundary (egress) location set and a
minimum spanning tree (here carried directly as its node set and its edge
set; an edge `(s, ps, t, pt)` joins switch `s` via its port `ps` to switch
`t` via its port `pt`).  The `Topology`/`Network` classes live outside the
specified core. -/
structure Network where
  egresses : List Location
  mstSwitches : List Int
  mstEdges : List (Int × Int × Int × Int)
deriving DecidableEq

/-- The tree-neighbors of switch `s` (`mst.neighbors(switch)`). -/
def treeNeighbors (edges : List (Int × Int × Int × Int)) (s : Int) : List Int :=
  edges.filterMap (fun e =>
    if e.1 = s then some e.2.2.1 else if e.2.2.1 = s then some e.1 else none)

/-- The port of switch `s` on the tree edge toward neighbor `t`
(`mst[switch][sw][switch]`). -/
def treePort (edges : List (Int × Int × Int × Int)) (s t : Int) : Int :=
  match edges.find? (fun e =>
      (decide (e.1 = s) && decide (e.2.2.1 = t)) ||
      (decide (e.1 = t) && decide (e.2.2.1 = s))) with
  | some e => if e.1 = s then e.2.1 else e.2.2.2
  | none => 0

/-! ## Predicates

One constructor per concrete `Predicate` subclass of `netcore.py`.  Every
node carries its `_network` attribute; `ingress_network`/`egress_network`
additionally carry their cached `egresses` set (both `None` on a fresh
node).  `difference` is a `SinglyDerivedPredicate`: it stores its two
operand attributes (`self.pred2 = pred1` — mirroring the source assignment)
plus the derived child it evaluates through; see `difference` below. -/

inductive Pred where
  | allPackets (net : Option Network)
  | noPackets (net : Option Network)
  | ingressNw (net : Option Network) (egresses : Option (List Location))
  | egressNw (net : Option Network) (egresses : Option (List Location))
  | matchP (net : Option Network) (fieldSpecs : List (String × Option Int))
  | unionP (net : Option Network) (preds : List Pred)
  | intersectP (net : Option Network) (preds : List Pred)
  | negateP (net : Option Network) (pred : Pred)
  | diffP (net : Option Network) (pred1 pred2 child : Pred)

/-- `match.eval`: every `(field, pattern)` pair must be satisfied — a field
with a pattern must be present with matching current value, a field mapped
to no pattern (`None`) must be absent; fails closed.  Patterns on the fields
exercised here are exact-match tokens (the registry's prefix patterns apply
only to the external IP value representation). -/
def matchEval : List (String × Option Int) → Packet → Bool
  | [], _ => true
  | (f, pat) :: rest, pkt =>
    match pkt.getStack f, pat with
    | [], none => matchEval rest pkt
    | [], some _ => false
    | _ :: _, none => false
    | v :: _, some pv => if v = pv then matchEval rest pkt else false

mutual

/-- `Predicate.eval`: `none` models a raised exception.
* `ingress_network.eval` looks up `packet["switch"]` and `packet["inport"]`
  unguarded (a missing field raises `KeyError`) and then tests membership in
  `self.egresses` (`None` before any `set_network` — membership then raises
  `TypeError`).
* `egress_network.eval` wraps only the `packet["outport"]` lookup in
  `try/except`, returning `False` when it raises.
* `intersect` short-circuits on the first false child, `union` on the first
  true child (Python `all`/`any` over a generator). -/
def evalPred : Pred → Packet → Option Bool
  | .allPackets _, _ => some true
  | .noPackets _, _ => some false
  | .ingressNw _ egs, pkt => do
      let sw ← pkt.get "switch"
      let ip ← pkt.get "inport"
      let es ← egs
      pure (es.any (fun l => decide (l = ⟨sw, ip⟩)))
  | .egressNw _ egs, pkt => do
      let sw ← pkt.get "switch"
      match pkt.get "outport" with
      | none => pure false
      | some op => do
          let es ← egs
          pure (es.any (fun l => decide (l = ⟨sw, op⟩)))
  | .matchP _ fs, pkt => some (matchEval fs pkt)
  | .unionP _ ps, pkt => evalAnyPred ps pkt
  | .intersectP _ ps, pkt => evalAllPred ps pkt
  | .negateP _ p, pkt => (evalPred p pkt).map (fun b => !b)
  | .diffP _ _ _ child, pkt => evalPred child pkt

def evalAnyPred : List Pred → Packet → Option Bool
  | [], _ => some false
  | p :: ps, pkt =>
    match evalPred p pkt with
    | none => none
    | some true => some true
    | some false => evalAnyPred ps pkt

def evalAllPred : List Pred → Packet → Option Bool
  | [], _ => some true
  | p :: ps, pkt =>
    match evalPred p pkt with
    | none => none
    | some false => some false
    | some true => evalAllPred ps pkt

end

/-- `difference.__init__(pred1, pred2)`: stores `self.pred1 = pred1`,
`self.pred2 = pred1` (the source assigns `pred1` to both attributes), and
hands `(~pred2) & pred1` — built from the *parameter* `pred2` — to the
`SinglyDerivedPredicate` constructor as the child it evaluates through. -/
def difference (pred1 pred2 : Pred) : Pred :=
  .diffP none pred1 pred1 (.intersectP none [.negateP none pred2, pred1])

/-- C1: for every packet and every pair of predicates `a`, `b` whose
evaluations return (rather than raise), `difference(a, b)` evaluates true iff
`a` evaluates true and `b` evaluates false on the packet — the constructed
child is `intersect([negate(b), a])`, not "`a` and not `a`" (the stray
`self.pred2 = pred1` assignment only affects the stored attribute, not the
evaluated child). -/
theorem difference_eval_iff (a b : Pred) (pkt : Packet) (av bv : Bool)
    (ha : evalPred a pkt = some av) (hb : evalPred b pkt = some bv) :
    evalPred (difference a b) pkt = some (av && !bv) := by
  cases bv with
  | true => simp [difference, evalPred, evalAnyPred, evalAllPred, hb]
  | false =>
    cases av with
    | true => simp [difference, evalPred, evalAnyPred, evalAllPred, ha, hb]
    | false => simp [difference, evalPred, evalAnyPred, evalAllPred, ha, hb]

/-- C1 witness: a nontrivial `a` (`match x=1`, true on the sample packet) and
a `b` (`no_packets`) disagreeing with `a` on it: `difference(a, b)` evaluates
true there, while "`a` and not `a`" would evaluate false. -/
theorem difference_eval_iff_witness :
    evalPred (difference (.matchP none [("x", some 1)]) (.noPackets none))
      [("x", [1])] = some true ∧
    evalPred (.intersectP none [.negateP none (.matchP none [("x", some 1)]),
      .matchP none [("x", some 1)]]) [("x", [1])] = some false := by
  constructor
  · have h := difference_eval_iff (.matchP none [("x", some 1)])
      (.noPackets none) [("x", [1])] true false (by rfl) (by rfl)
    simpa using h
  · rfl

/-! ## Policies

One constructor per concrete `Policy` subclass needed by the claims.  Every
node carries its `_network` attribute; `flood` additionally carries its
cached `egresses` and `mst` (all `None` on a fresh node).  `MutablePolicy`
(constructor `mutPol`) holds its replaceable inner policy. -/

inductive Pol where
  | passthroughP (net : Option Network)
  | dropP (net : Option Network)
  | floodP (net : Option Network) (egresses : Option (List Location))
      (mst : Option (List Int × List (Int × Int × Int × Int)))
  | pushP (net : Option Network) (m : List (String × Int))
  | popP (net : Option Network) (fields : List String)
  | moveP (net : Option Network) (m : List (String × String))
  | parallelP (net : Option Network) (pols : List Pol)
  | sequentialP (net : Option Network) (pols : List Pol)
  | restrictP (net : Option Network) (pred : Pred) (pol : Pol)
  | removeP (net : Option Network) (pred : Pred) (pol : Pol)
  | mutPol (net : Option Network) (inner : Pol)

/-- `move.eval`'s first loop: per `(dstfield, srcfield)` entry, record the
push `dstfield ↦ packet[srcfield]` and the pop of `srcfield`, silently
skipping (`except KeyError: pass`) any absent source field. -/
def moveCollect (pkt : Packet) :
    List (String × String) → List (String × Int) × List String
  | [] => ([], [])
  | (d, s) :: rest =>
    match pkt.get s with
    | some v =>
        let r := moveCollect pkt rest
        ((d, v) :: r.1, s :: r.2)
    | none => moveCollect pkt rest

/-- The outport edit `flood.eval` performs per candidate port: `modify`
(pop+push) when the current outport is the sentinel `-1`, else `push`; a
packet with no outport at all (`KeyError`, caught) is pushed. -/
def floodEdit (pkt : Packet) (p : Int) : Packet :=
  match pkt.get "outport" with
  | some o => if o = -1 then (pkt.pop1 "outport").push1 "outport" p
              else pkt.push1 "outport" p
  | none => pkt.push1 "outport" p

/-- The candidate outports `flood.eval` computes for switch `sw`: the
boundary egress port-numbers on `sw` unioned (as a Python `set`) with the
tree-edge port toward each tree-neighbor of `sw`. -/
def floodPortNos (es : List Location) (edges : List (Int × Int × Int × Int))
    (sw : Int) : List Int :=
  ((es.filterMap (fun l => if l.switch = sw then some l.port_no else none)) ++
    (treeNeighbors edges sw).map (fun t => treePort edges sw t)).dedup

mutual

/-- `Policy.eval`: a multiset of output packets; `none` models a raised
exception.
* `flood.eval` returns empty when no network has been set; otherwise it
  looks up switch and inport, tests spanning-tree membership, and emits one
  outport edit per candidate port other than the inport.
* `parallel.eval` sums the children's multisets (`Counter.update`).
* `sequential.eval` folds over its children: per step, for each held
  `(lpacket, lcount)` it evaluates the child and *assigns*
  `c[rpacket] = lcount * rcount` for each output (the source's assignment,
  not an accumulation).
* `restrict`/`remove` gate their policy on the predicate. -/
def polEval : Pol → Packet → Option (Cnt Packet)
  | .passthroughP _, pkt => some [(pkt, 1)]
  | .dropP _, _ => some []
  | .floodP mnet egs mst, pkt =>
    match mnet with
    | none => some []
    | some _ => do
        let sw ← pkt.get "switch"
        let ip ← pkt.get "inport"
        let mstd ← mst
        if sw ∈ mstd.1 then do
          let es ← egs
          let portNos := floodPortNos es mstd.2 sw
          pure (cofList ((portNos.filter (fun p => !decide (p = ip))).map
            (floodEdit pkt)))
        else pure []
  | .pushP _ m, pkt => some [(pkt.pushmany m, 1)]
  | .popP _ fs, pkt => some [(pkt.popmany fs, 1)]
  | .moveP _ m, pkt =>
    let r := moveCollect pkt m
    some [((pkt.pushmany r.1).popmany r.2, 1)]
  | .parallelP _ ps, pkt => parGo ps pkt []
  | .sequentialP _ ps, pkt => seqGo ps (cofList [pkt])
  | .restrictP _ pr pol, pkt => do
      let b ← evalPred pr pkt
      if b then polEval pol pkt else pure []
  | .removeP _ pr pol, pkt => do
      let b ← evalPred pr pkt
      if !b then polEval pol pkt else pure []
  | .mutPol _ inner, pkt => polEval inner pkt

def parGo : List Pol → Packet → Cnt Packet → Option (Cnt Packet)
  | [], _, c => some c
  | p :: ps, pkt, c => do
      let rc ← polEval p pkt
      parGo ps pkt (cupdate c rc)

def seqGo : List Pol → Cnt Packet → Option (Cnt Packet)
  | [], lc => some lc
  | p :: ps, lc => do
      let c ← lc.foldlM (fun acc lkv => do
          let rc ← polEval p lkv.1
          pure (rc.foldl (fun a rkv => cset a rkv.1 (lkv.2 * rkv.2)) acc))
        ([] : Cnt Packet)
      seqGo ps c

end

/-! ## C2: the sequential-composition fold -/

/-- Modelled from the spec: the sequential fold in which, at each step, for
every held `(intermediate packet, multiplicity m)` pair the next policy is
evaluated and `m * child_multiplicity` is *accumulated (summed)* into the
next intermediate multiset for each of the child's output packets — compare
`seqGo`, whose inner update is the source's overwriting assignment. -/
def seqSpecGo : List Pol → Cnt Packet → Option (Cnt Packet)
  | [], lc => some lc
  | p :: ps, lc => do
      let c ← lc.foldlM (fun acc lkv => do
          let rc ← polEval p lkv.1
          pure (rc.foldl (fun a rkv => cadd a rkv.1 (lkv.2 * rkv.2)) acc))
        ([] : Cnt Packet)
      seqSpecGo ps c

/-- The two-step policy list exhibiting the divergence: the first step fans
the packet out to two intermediate packets (`x=1` pushed / `x=2` pushed),
the second pops `x`, collapsing both intermediates onto the same output. -/
def seqBugPols : List Pol :=
  [.parallelP none [.pushP none [("x", 1)], .pushP none [("x", 2)]],
   .popP none ["x"]]

/-- C2 (code bug): on the empty packet, the source's `sequential.eval` gives
the collapsed output packet multiplicity 1 — the second intermediate
packet's contribution *overwrites* the first (`c[rpacket] = lcount*rcount`)
— whereas the specified accumulating fold gives multiplicity 2. -/
theorem sequential_overwrite_vs_sum :
    (polEval (.sequentialP none seqBugPols) []).map
      (fun c => cnt c [("x", [])]) = some 1 ∧
    (seqSpecGo seqBugPols (cofList [([] : Packet)])).map
      (fun c => cnt c [("x", [])]) = some 2 := by
  constructor <;> rfl

/-- C10: `sequential([])` evaluates to `{packet: 1}` (the identity policy)
and `parallel([])` evaluates to the empty multiset (drop) — the identity
elements of the two composition operators. -/
theorem empty_compositions (net : Option Network) (pkt q : Packet) :
    polEval (.sequentialP net []) pkt = some [(pkt, 1)] ∧
    cnt [(pkt, 1)] q = (if q = pkt then 1 else 0) ∧
    polEval (.parallelP net []) pkt = some [] ∧
    cnt ([] : Cnt Packet) q = 0 := by
  refine ⟨rfl, ?_, rfl, rfl⟩
  by_cases h : q = pkt
  · subst h; simp [cnt]
  · have h' : ¬ (pkt = q) := fun hc => h hc.symm
    simp [cnt, h, h']

/-! ## C3 and C4: absence-as-false and topology-unavailable -/

/-- A sample network state. -/
def nwEx : Network := ⟨[⟨1, 5⟩], [1], []⟩

/-- C3 (code bug): on a packet whose relevant location field is absent,
`egress_network.eval` returns false (its `try/except` around
`packet["outport"]` recovers the `KeyError`), but `ingress_network.eval`
has no such guard: looking up the absent `"inport"` raises `KeyError`
(modelled by `none`) instead of returning false. -/
theorem ingress_missing_inport_raises :
    evalPred (.egressNw (some nwEx) (some nwEx.egresses)) [("switch", [1])] =
      some false ∧
    evalPred (.ingressNw (some nwEx) (some nwEx.egresses)) [("switch", [1])] =
      none := by
  constructor <;> rfl

/-- C4 (code bug): before any `set_network` call, `flood.eval` returns the
empty multiset (its `self.network is None` guard), but the boundary
predicates have no such guard: with the location fields present,
`Location(switch, port) in self.egresses` tests membership in `None`,
raising `TypeError` (modelled by `none`) instead of returning false. -/
theorem topology_unavailable_neutral :
    polEval (.floodP none none none) [("switch", [1]), ("inport", [2])] =
      some [] ∧
    evalPred (.ingressNw none none) [("switch", [1]), ("inport", [2])] =
      none ∧
    evalPred (.egressNw none none)
      [("switch", [1]), ("outport", [2])] = none := by
  refine ⟨rfl, rfl, rfl⟩

/-! ## The network-state propagation protocol (`set_network`) -/

/-- The `_network` attribute currently stored at the root node. -/
def rootNetPred : Pred → Option Network
  | .allPackets m | .noPackets m | .ingressNw m _ | .egressNw m _
  | .matchP m _ | .unionP m _ | .intersectP m _ | .negateP m _
  | .diffP m _ _ _ => m

/-- The `_network` attribute currently stored at the root node. -/
def rootNetPol : Pol → Option Network
  | .passthroughP m | .dropP m | .floodP m _ _ | .pushP m _ | .popP m _
  | .moveP m _ | .parallelP m _ | .sequentialP m _ | .restrictP m _ _
  | .removeP m _ _ | .mutPol m _ => m

mutual

/-- `set_network(network)` on a predicate node (the runtime always delivers
a non-`None` network).  Every subclass begins with the guard
`if network == self._network: return`; past it, the node stores the new
state, recomputes its topology-derived cache where it has one
(`ingress_network`/`egress_network` refresh `self.egresses`), and forwards
the same call to every child predicate it owns. -/
def setNetPred (nw : Network) : Pred → Pred
  | .allPackets m => if some nw = m then .allPackets m else .allPackets (some nw)
  | .noPackets m => if some nw = m then .noPackets m else .noPackets (some nw)
  | .ingressNw m egs =>
    if some nw = m then .ingressNw m egs
    else .ingressNw (some nw) (some nw.egresses)
  | .egressNw m egs =>
    if some nw = m then .egressNw m egs
    else .egressNw (some nw) (some nw.egresses)
  | .matchP m fs => if some nw = m then .matchP m fs else .matchP (some nw) fs
  | .unionP m ps =>
    if some nw = m then .unionP m ps
    else .unionP (some nw) (setNetPreds nw ps)
  | .intersectP m ps =>
    if some nw = m then .intersectP m ps
    else .intersectP (some nw) (setNetPreds nw ps)
  | .negateP m p =>
    if some nw = m then .negateP m p
    else .negateP (some nw) (setNetPred nw p)
  | .diffP m p1 p2 child =>
    if some nw = m then .diffP m p1 p2 child
    else .diffP (some nw) p1 p2 (setNetPred nw child)

def setNetPreds (nw : Network) : List Pred → List Pred
  | [] => []
  | p :: ps => setNetPred nw p :: setNetPreds nw ps

end

mutual

/-- `set_network(network)` on a policy node; same protocol.  `flood`
recomputes its cached `egresses` and minimum spanning tree from the new
state; the composite nodes forward the call to their children
(`restrict`/`remove` also to their predicate); `MutablePolicy` delegates to
the currently installed inner policy. -/
def setNetPol (nw : Network) : Pol → Pol
  | .passthroughP m =>
    if some nw = m then .passthroughP m else .passthroughP (some nw)
  | .dropP m => if some nw = m then .dropP m else .dropP (some nw)
  | .floodP m egs mst =>
    if some nw = m then .floodP m egs mst
    else .floodP (some nw) (some nw.egresses)
      (some (nw.mstSwitches, nw.mstEdges))
  | .pushP m fm => if some nw = m then .pushP m fm else .pushP (some nw) fm
  | .popP m fs => if some nw = m then .popP m fs else .popP (some nw) fs
  | .moveP m fm => if some nw = m then .moveP m fm else .moveP (some nw) fm
  | .parallelP m ps =>
    if some nw = m then .parallelP m ps
    else .parallelP (some nw) (setNetPols nw ps)
  | .sequentialP m ps =>
    if some nw = m then .sequentialP m ps
    else .sequentialP (some nw) (setNetPols nw ps)
  | .restrictP m pr pol =>
    if some nw = m then .restrictP m pr pol
    else .restrictP (some nw) (setNetPred nw pr) (setNetPol nw pol)
  | .removeP m pr pol =>
    if some nw = m then .removeP m pr pol
    else .removeP (some nw) (setNetPred nw pr) (setNetPol nw pol)
  | .mutPol m inner =>
    if some nw = m then .mutPol m inner
    else .mutPol (some nw) (setNetPol nw inner)

def setNetPols (nw : Network) : List Pol → List Pol
  | [] => []
  | p :: ps => setNetPol nw p :: setNetPols nw ps

end

theorem rootNet_setNetPred (nw : Network) (t : Pred) :
    rootNetPred (setNetPred nw t) = some nw := by
  cases t <;> simp only [setNetPred] <;> split <;>
    simp_all [rootNetPred]

theorem rootNet_setNetPol (nw : Network) (t : Pol) :
    rootNetPol (setNetPol nw t) = some nw := by
  cases t <;> simp only [setNetPol] <;> split <;>
    simp_all [rootNetPol]

theorem setNetPred_noop (nw : Network) (t : Pred)
    (h : rootNetPred t = some nw) : setNetPred nw t = t := by
  cases t <;> simp_all [rootNetPred, setNetPred]

theorem setNetPol_noop (nw : Network) (t : Pol)
    (h : rootNetPol t = some nw) : setNetPol nw t = t := by
  cases t <;> simp_all [rootNetPol, setNetPol]

/-- C5: `set_network` with a state equal to the node's currently stored
state is a no-op (the node — caches, children and all — is left untouched:
no recomputation, no forwarding), and consequently calling `set_network`
twice in a row with the same state leaves any node and its subtree exactly
as calling it once. -/
theorem set_network_noop_and_idempotent :
    (∀ (nw : Network) (t : Pred), rootNetPred t = some nw →
       setNetPred nw t = t) ∧
    (∀ (nw : Network) (t : Pol), rootNetPol t = some nw →
       setNetPol nw t = t) ∧
    (∀ (nw : Network) (t : Pred),
       setNetPred nw (setNetPred nw t) = setNetPred nw t) ∧
    (∀ (nw : Network) (t : Pol),
       setNetPol nw (setNetPol nw t) = setNetPol nw t) := by
  refine ⟨setNetPred_noop, setNetPol_noop, ?_, ?_⟩
  · intro nw t; exact setNetPred_noop nw _ (rootNet_setNetPred nw t)
  · intro nw t; exact setNetPol_noop nw _ (rootNet_setNetPol nw t)

/-- C5 witness: a freshly constructed `flood` policy, given the sample
network twice: the stored state after one call equals the new network, and
the second call changes nothing. -/
theorem set_network_noop_and_idempotent_witness :
    setNetPol nwEx
      (.floodP (some nwEx) (some nwEx.egresses)
        (some (nwEx.mstSwitches, nwEx.mstEdges))) =
      .floodP (some nwEx) (some nwEx.egresses)
        (some (nwEx.mstSwitches, nwEx.mstEdges)) ∧
    setNetPred nwEx (.ingressNw (some nwEx) (some nwEx.egresses)) =
      .ingressNw (some nwEx) (some nwEx.egresses) ∧
    setNetPol nwEx (setNetPol nwEx (.floodP none none none)) =
      setNetPol nwEx (.floodP none none none) := by
  refine ⟨?_, ?_, ?_⟩
  · exact set_network_noop_and_idempotent.2.1 nwEx _ rfl
  · exact set_network_noop_and_idempotent.1 nwEx _ rfl
  · exact set_network_noop_and_idempotent.2.2.2 nwEx (.floodP none none none)

/-! ## C9: `MutablePolicy` -/

/-- `MutablePolicy.__init__`: the inner policy starts as `drop`; the
`_network` attribute starts as `None`. -/
def mutNew : Pol := .mutPol none (.dropP none)

/-- The currently installed inner policy of a `MutablePolicy` node. -/
def mutInnerOf : Pol → Pol
  | .mutPol _ inner => inner
  | t => t

/-- The `policy` property setter: `self._policy = value;
self._policy.set_network(self.network)`.  When the wrapper has never been
given a network, `set_network(None)` hits the `None == self._network` guard
of a freshly built inner policy and is a no-op, modelled by leaving the
installed policy unchanged. -/
def mutInstall : Pol → Pol → Pol
  | .mutPol m _, p =>
    .mutPol m (match m with | some nw => setNetPol nw p | none => p)
  | t, _ => t

/-- C9: a mutable policy is initialized with `drop` as its inner policy;
installing a new inner policy immediately propagates the wrapper's
last-known network state into it, so after every install the inner policy's
stored network state equals the wrapper's; `eval` and `set_network` on the
wrapper delegate to the currently installed inner policy (`set_network`
additionally records the state on the wrapper itself, guarded as in C5). -/
theorem mutable_policy_contract :
    (mutNew = .mutPol none (.dropP none)) ∧
    (∀ (nw : Network) (old p : Pol),
       mutInstall (.mutPol (some nw) old) p =
         .mutPol (some nw) (setNetPol nw p) ∧
       rootNetPol (mutInnerOf (mutInstall (.mutPol (some nw) old) p)) =
         some nw) ∧
    (∀ (old p : Pol), rootNetPol p = none →
       mutInnerOf (mutInstall (.mutPol none old) p) = p ∧
       rootNetPol (mutInnerOf (mutInstall (.mutPol none old) p)) = none) ∧
    (∀ (m : Option Network) (inner : Pol) (pkt : Packet),
       polEval (.mutPol m inner) pkt = polEval inner pkt) ∧
    (∀ (nw : Network) (m : Option Network) (inner : Pol),
       setNetPol nw (.mutPol m inner) =
         if some nw = m then .mutPol m inner
         else .mutPol (some nw) (setNetPol nw inner)) := by
  refine ⟨rfl, ?_, ?_, ?_, ?_⟩
  · intro nw old p
    exact ⟨rfl, by simp [mutInstall, mutInnerOf, rootNet_setNetPol]⟩
  · intro old p h
    exact ⟨rfl, by simpa [mutInstall, mutInnerOf] using h⟩
  · intro m inner pkt; rfl
  · intro nw m inner; rfl

/-- C9 witness: install a fresh `flood` into a mutable policy whose stored
state is the sample network: the installed policy's stored state equals the
wrapper's; a fresh `passthrough` installed into a never-networked wrapper
stays fresh. -/
theorem mutable_policy_contract_witness :
    rootNetPol (mutInnerOf (mutInstall (.mutPol (some nwEx) (.dropP none))
      (.floodP none none none))) = some nwEx ∧
    mutInnerOf (mutInstall (.mutPol none (.dropP none))
      (.passthroughP none)) = .passthroughP none := by
  refine ⟨(mutable_policy_contract.2.1 nwEx (.dropP none)
    (.floodP none none none)).2, ?_⟩
  exact (mutable_policy_contract.2.2.1 (.dropP none) (.passthroughP none)
    rfl).1

/-! ## C8: `move` -/

theorem getStack_push1_self (p : Packet) (f : String) (v : Int) :
    (p.push1 f v).getStack f = v :: p.getStack f := by
  induction p with
  | nil => simp [Packet.push1, Packet.getStack]
  | cons e rest ih =>
    by_cases h : e.1 = f
    · simp [Packet.push1, Packet.getStack, h]
    · simp [Packet.push1, Packet.getStack, h, ih]

theorem getStack_push1_other (p : Packet) (f g : String) (v : Int)
    (h : f ≠ g) : (p.push1 f v).getStack g = p.getStack g := by
  have h' : ¬ (g = f) := fun hc => h hc.symm
  induction p with
  | nil => simp [Packet.push1, Packet.getStack, h]
  | cons e rest ih =>
    by_cases he : e.1 = f
    · have heg : ¬ (e.1 = g) := by rw [he]; exact h
      simp [Packet.push1, Packet.getStack, he, heg, h]
    · by_cases heg : e.1 = g
      · simp [Packet.push1, Packet.getStack, he, heg, h']
      · simp [Packet.push1, Packet.getStack, he, heg, ih]

theorem getStack_pop1_self (p : Packet) (f : String) :
    (p.pop1 f).getStack f = (p.getStack f).tail := by
  induction p with
  | nil => simp [Packet.pop1, Packet.getStack]
  | cons e rest ih =>
    by_cases h : e.1 = f
    · simp [Packet.pop1, Packet.getStack, h]
    · simp [Packet.pop1, Packet.getStack, h, ih]

theorem getStack_pop1_other (p : Packet) (f g : String) (h : f ≠ g) :
    (p.pop1 f).getStack g = p.getStack g := by
  have h' : ¬ (g = f) := fun hc => h hc.symm
  induction p with
  | nil => simp [Packet.pop1, Packet.getStack]
  | cons e rest ih =>
    by_cases he : e.1 = f
    · have heg : ¬ (e.1 = g) := by rw [he]; exact h
      simp [Packet.pop1, Packet.getStack, he, heg, h]
    · by_cases heg : e.1 = g
      · simp [Packet.pop1, Packet.getStack, he, heg, h']
      · simp [Packet.pop1, Packet.getStack, he, heg, ih]

/-- C8: `move(dst=src)` yields exactly one output packet (multiplicity 1):
when `src` is present, `dst`'s current value is the prior current value of
`src`, `src`'s stack is popped by exactly one level, and every other field
is untouched; when `src` is absent the edit is skipped and the packet is
unchanged; more generally, a `move` none of whose source fields is present
leaves the packet unchanged (present-source edits in a multi-field `move`
are still applied, per `moveCollect`). -/
theorem move_eval_contract (net : Option Network) (pkt : Packet)
    (dst src : String) (hds : dst ≠ src) :
    (∀ v, pkt.get src = some v →
       ∃ out, polEval (.moveP net [(dst, src)]) pkt = some [(out, 1)] ∧
         out.get dst = some v ∧
         out.getStack src = (pkt.getStack src).tail ∧
         (∀ f, f ≠ dst → f ≠ src → out.getStack f = pkt.getStack f)) ∧
    (pkt.get src = none →
       polEval (.moveP net [(dst, src)]) pkt = some [(pkt, 1)]) ∧
    (∀ m : List (String × String), (∀ e ∈ m, pkt.get e.2 = none) →
       polEval (.moveP net m) pkt = some [(pkt, 1)]) := by
  have hsd : src ≠ dst := fun hc => hds hc.symm
  refine ⟨?_, ?_, ?_⟩
  · intro v hv
    refine ⟨(pkt.push1 dst v).pop1 src, ?_, ?_, ?_, ?_⟩
    · simp [polEval, moveCollect, hv, Packet.pushmany, Packet.popmany]
    · rw [Packet.get, getStack_pop1_other _ _ _ hsd, getStack_push1_self]
      rfl
    · rw [getStack_pop1_self, getStack_push1_other _ _ _ _ hds]
    · intro f hfd hfs
      rw [getStack_pop1_other _ _ _ (fun hc => hfs hc.symm),
        getStack_push1_other _ _ _ _ (fun hc => hfd hc.symm)]
  · intro hv
    simp [polEval, moveCollect, hv, Packet.pushmany, Packet.popmany]
  · intro m hm
    have hcol : moveCollect pkt m = ([], []) := by
      induction m with
      | nil => rfl
      | cons e rest ih =>
        have he : pkt.get e.2 = none := hm e (by simp)
        have : moveCollect pkt rest = ([], []) := by
          refine ih ?_
          intro e' he'; exact hm e' (by simp [he'])
        simp [moveCollect, he, this]
    simp [polEval, hcol, Packet.pushmany, Packet.popmany]

/-- C8 witness: on `{a: [7], b: [3, 4]}`, `move(c=b)` yields one packet with
`c = 3` current, `b` popped to `[4]`, `a` untouched; `move(c=z)` with `z`
absent leaves the packet unchanged. -/
theorem move_eval_contract_witness :
    (∃ out, polEval (.moveP none [("c", "b")])
        [("a", [7]), ("b", [3, 4])] = some [(out, 1)] ∧
      out.get "c" = some 3 ∧
      out.getStack "b" = (Packet.getStack [("a", [7]), ("b", [3, 4])] "b").tail ∧
      (∀ f, f ≠ "c" → f ≠ "b" →
        out.getStack f = Packet.getStack [("a", [7]), ("b", [3, 4])] f)) ∧
    polEval (.moveP none [("c", "z")]) [("a", [7]), ("b", [3, 4])] =
      some [([("a", [7]), ("b", [3, 4])], 1)] := by
  constructor
  · exact (move_eval_contract none [("a", [7]), ("b", [3, 4])] "c" "b"
      (by decide)).1 3 rfl
  · exact (move_eval_contract none [("a", [7]), ("b", [3, 4])] "c" "z"
      (by decide)).2.1 rfl

/-! ## C6: `flood.eval` after a network has been set -/

theorem count_eq_zero_of_not_mem_dec {α : Type} [DecidableEq α] {a : α}
    {l : List α} (h : a ∉ l) : l.count a = 0 :=
  List.count_eq_zero.mpr h

theorem get_floodEdit (pkt : Packet) (p : Int) :
    (floodEdit pkt p).get "outport" = some p := by
  unfold floodEdit
  cases h : pkt.get "outport" with
  | none => simp [Packet.get, getStack_push1_self]
  | some o =>
    by_cases ho : o = -1
    · simp [ho, Packet.get, getStack_push1_self]
    · simp [ho, Packet.get, getStack_push1_self]

theorem floodEdit_injective (pkt : Packet) :
    Function.Injective (floodEdit pkt) := by
  intro a b hab
  have ha := get_floodEdit pkt a
  have hb := get_floodEdit pkt b
  rw [hab, hb] at ha
  exact (Option.some.injEq _ _).mp ha.symm

/-- C6: after `set_network`, for a packet at switch `s`, inport `i`: if `s`
is not in the cached spanning tree the result is empty; otherwise the
output holds exactly one packet — multiplicity 1 — per candidate outport
(the union of the boundary egress port-numbers on `s` and the tree-edge
port toward each tree-neighbor of `s`), with the inport `i` excluded. -/
theorem flood_eval_after_set (nw : Network) (pkt : Packet) (s i : Int)
    (hs : pkt.get "switch" = some s) (hi : pkt.get "inport" = some i) :
    ∃ r, polEval (setNetPol nw (.floodP none none none)) pkt = some r ∧
      (s ∉ nw.mstSwitches → r = []) ∧
      (s ∈ nw.mstSwitches → ∀ q : Packet,
        cnt r q = if ∃ p ∈ floodPortNos nw.egresses nw.mstEdges s,
            p ≠ i ∧ q = floodEdit pkt p then 1 else 0) := by
  have hset : setNetPol nw (.floodP none none none) =
      .floodP (some nw) (some nw.egresses)
        (some (nw.mstSwitches, nw.mstEdges)) := rfl
  rw [hset]
  by_cases hmem : s ∈ nw.mstSwitches
  · refine ⟨cofList (((floodPortNos nw.egresses nw.mstEdges s).filter
      (fun p => !decide (p = i))).map (floodEdit pkt)), ?_, ?_, ?_⟩
    · simp [polEval, hs, hi, hmem, floodPortNos]
    · intro h; exact absurd hmem h
    · intro _ q
      rw [cnt_cofList]
      have hnd : ((floodPortNos nw.egresses nw.mstEdges s).filter
          (fun p => !decide (p = i))).Nodup :=
        (List.nodup_dedup _).filter _
      by_cases hex : ∃ p ∈ floodPortNos nw.egresses nw.mstEdges s,
          p ≠ i ∧ q = floodEdit pkt p
      · obtain ⟨p, hp, hpi, hq⟩ := hex
        have hpf : p ∈ (floodPortNos nw.egresses nw.mstEdges s).filter
            (fun p => !decide (p = i)) := by
          simp [List.mem_filter, hp, hpi]
        rw [if_pos ⟨p, hp, hpi, hq⟩, hq,
          List.count_map_of_injective _ _ (floodEdit_injective pkt)]
        exact List.count_eq_one_of_mem hnd hpf
      · rw [if_neg hex]
        refine count_eq_zero_of_not_mem_dec ?_
        intro hqmem
        obtain ⟨p, hpf, hq⟩ := List.mem_map.mp hqmem
        have := List.mem_filter.mp hpf
        refine hex ⟨p, this.1, ?_, hq.symm⟩
        simpa using this.2
  · refine ⟨[], ?_, fun _ => rfl, fun h => absurd h hmem⟩
    simp [polEval, hs, hi, hmem]

/-- C6 witness: switch 1 has tree-neighbors reached via its ports 2 and 3
and no boundary egress ports; a packet arriving on port 2 floods only to
port 3 (and not back out port 2). -/
theorem flood_eval_after_set_witness :
    ∃ r, polEval (setNetPol ⟨[], [1, 2, 3], [(1, 2, 2, 9), (1, 3, 3, 9)]⟩
        (.floodP none none none)) [("switch", [1]), ("inport", [2])] =
        some r ∧
      cnt r (floodEdit [("switch", [1]), ("inport", [2])] 3) = 1 ∧
      cnt r (floodEdit [("switch", [1]), ("inport", [2])] 2) = 0 := by
  obtain ⟨r, hr, _, hcnt⟩ := flood_eval_after_set
    ⟨[], [1, 2, 3], [(1, 2, 2, 9), (1, 3, 3, 9)]⟩
    [("switch", [1]), ("inport", [2])] 1 2 rfl rfl
  refine ⟨r, hr, ?_, ?_⟩
  · rw [hcnt (by decide) _, if_pos ?_]
    refine ⟨3, by decide, by decide, rfl⟩
  · rw [hcnt (by decide) _, if_neg ?_]
    intro hex
    obtain ⟨p, hp, hpi, hq⟩ := hex
    exact hpi (floodEdit_injective _ hq).symm

/-! ## C7: the `packets` bounded-repeat group filter

The mutable state of one `packets` query node: the wrapped
`PredicateWrappedFwdBucket`'s per-combination counts (`self.seen`, a dict
keyed by `match` objects — represented by their field-value maps, compared
as maps) and the node's exclusion predicate, which the source refines as
`self.predicate = ~match(val) & self.predicate` (represented by the list of
negated field-value maps conjoined so far, initially empty =
`all_packets`).  A step returns whether the forwarding bucket's listeners
were invoked on the packet. -/

/-- A `match` key: the field-value map a `match` object was built from. -/
abbrev MKey := List (String × Int)

/-- One direction of `frozendict` equality. -/
def mkeySub (k1 k2 : MKey) : Bool :=
  k1.all (fun fv => decide ((k2.find? (fun e => decide (e.1 = fv.1))).map
    (fun e => e.2) = some fv.2))

/-- `match.__eq__`: structural map equality of the two field-value maps. -/
def mkeyEq (k1 k2 : MKey) : Bool := mkeySub k1 k2 && mkeySub k2 k1

/-- `self.seen[pred]` (0 when the key was never seen). -/
def seenCount (seen : List (MKey × Nat)) (k : MKey) : Nat :=
  match seen.find? (fun e => mkeyEq e.1 k) with
  | some e => e.2
  | none => 0

/-- `try: self.seen[pred] += 1 / except KeyError: self.seen[pred] = 1`. -/
def seenBump : List (MKey × Nat) → MKey → List (MKey × Nat)
  | [], k => [(k, 1)]
  | e :: rest, k =>
    if mkeyEq e.1 k then (e.1, e.2 + 1) :: rest else e :: seenBump rest k

/-- `{h: pkt[h] for h in fields}`: one `(field, packet[field])` pair per
listed field, raising (`none`) on an absent field. -/
def fieldsVals (fields : List String) (pkt : Packet) : Option MKey :=
  fields.mapM (fun f => (pkt.get f).map (fun v => (f, v)))

/-- The `match` key `PredicateWrappedFwdBucket.eval` builds for a packet:
`[(field, packet[field]) for field in self.fields]` when group fields are
configured, else one pair per available field of the packet. -/
def combKey (fields : List String) (pkt : Packet) : Option MKey :=
  if fields.isEmpty then
    some (pkt.filterMap (fun e => (e.2.head?).map (fun v => (e.1, v))))
  else fieldsVals fields pkt

/-- `match(val).eval(pkt)` for a key built from concrete field values:
every listed field must be present with that current value. -/
def mkeyMatches (k : MKey) (pkt : Packet) : Bool :=
  k.all (fun fv => decide (pkt.get fv.1 = some fv.2))

/-- `self.predicate.eval(pkt)`: the conjunction of the negated matches
refined so far (initially `all_packets`). -/
def exclPasses (excl : List MKey) (pkt : Packet) : Bool :=
  excl.all (fun k => !mkeyMatches k pkt)

/-- The mutable state of one `packets` node. -/
structure QState where
  limit : Option Nat
  qfields : List String
  seen : List (MKey × Nat)
  excl : List MKey
deriving DecidableEq

/-- `packets.__init__(limit, fields)`. -/
def qInit (limit : Option Nat) (fields : List String) : QState :=
  ⟨limit, fields, [], []⟩

/-- `PredicateWrappedFwdBucket.eval`: with no limit, forward (invoke the
listeners) unconditionally; otherwise build the packet's combination key,
bump its count, and forward only while the bumped count has not exceeded
the limit.  The returned flag is both the predicate's result and "listeners
were invoked". -/
def pwfbStep (st : QState) (pkt : Packet) : Option (QState × Bool) :=
  match st.limit with
  | none => some (st, true)
  | some lim => do
      let key ← combKey st.qfields pkt
      let seen2 := seenBump st.seen key
      if seenCount seen2 key > lim then pure ({st with seen := seen2}, false)
      else pure ({st with seen := seen2}, true)

/-- `packets.eval`: if the exclusion predicate passes and the wrapped
bucket rejects the packet (count exceeded), refine the exclusion predicate
by conjoining the negated match on `{h: pkt[h] for h in self.fields}` — the
node's *configured* field list, which is empty when no group fields were
given.  Short-circuit: when the exclusion predicate fails, the bucket is
never evaluated (no count bump, no listener call). -/
def qStep (st : QState) (pkt : Packet) : Option (QState × Bool) :=
  if exclPasses st.excl pkt then do
    let r ← pwfbStep st pkt
    if r.2 then pure r
    else do
      let val ← fieldsVals st.qfields pkt
      pure ({r.1 with excl := val :: r.1.excl}, false)
  else pure (st, false)

/-- Feed a packet sequence through one `packets` node, collecting the
listener-invocation flag of every step. -/
def qRun : QState → List Packet → Option (QState × List Bool)
  | st, [] => some (st, [])
  | st, pkt :: rest => do
      let r ← qStep st pkt
      let r2 ← qRun r.1 rest
      pure (r2.1, r.2 :: r2.2)

/-- Modelled from the spec (the claim's reading): once the count for a
combination exceeds the limit, *exactly that combination* is excluded — so
a packet is forwarded to the listeners iff its own combination's bumped
count has not exceeded the limit. -/
def qSpecRun : Option Nat → List String → List (MKey × Nat) → List Packet →
    Option (List Bool)
  | _, _, _, [] => some []
  | none, fields, seen, _ :: rest =>
      (qSpecRun none fields seen rest).map (fun invs => true :: invs)
  | some lim, fields, seen, pkt :: rest => do
      let key ← combKey fields pkt
      let seen2 := seenBump seen key
      let invs ← qSpecRun (some lim) fields seen2 rest
      pure (decide (seenCount seen2 key ≤ lim) :: invs)

/-- Sample packets: identical triple `pktA`, then `pktB` of a distinct
field combination. -/
def pktA : Packet := [("f", [1])]

/-- A packet whose field combination differs from `pktA`'s. -/
def pktB : Packet := [("f", [2])]

/-- C7 counterexample: with `limit=2` and no group fields, after three
copies of `pktA` exhaust their combination's budget, the refined exclusion
predicate is `~match({}) & all_packets`, which excludes *every* packet: the
fresh combination `pktB` (count 0, never exceeded) is not forwarded either
— the code gives invocations `[T, T, F, F]` where the claim's
exactly-that-combination exclusion predicts `[T, T, F, T]`. -/
theorem packets_exact_exclusion_counterexample :
    (qRun (qInit (some 2) []) [pktA, pktA, pktA, pktB]).map
      (fun r => r.2) = some [true, true, false, false] ∧
    qSpecRun (some 2) [] [] [pktA, pktA, pktA, pktB] =
      some [true, true, false, true] := by
  constructor <;> rfl

/-- C7 (amended): listeners are invoked on a packet only while the bumped
count of that packet's combination has not exceeded the limit; when the
count is exceeded, the filter conjoins with the prior exclusion predicate
the negated match on the values of its *configured* field set (the empty —
always-true — match when no group fields are configured, permanently
excluding every later packet, not only the offending combination); with
`limit=2` and no group fields, three identical packets invoke the
listeners on the first two only. -/
theorem packets_limit_contract :
    (∀ (st st2 : QState) (pkt : Packet) (lim : Nat),
       st.limit = some lim → qStep st pkt = some (st2, true) →
       ∃ key, combKey st.qfields pkt = some key ∧
         seenCount st2.seen key ≤ lim) ∧
    (∀ (st : QState) (pkt : Packet) (r : QState × Bool),
       exclPasses st.excl pkt = true → pwfbStep st pkt = some r →
       r.2 = false →
       ∃ val, fieldsVals st.qfields pkt = some val ∧
         qStep st pkt = some ({r.1 with excl := val :: r.1.excl}, false)) ∧
    (qRun (qInit (some 2) []) [pktA, pktA, pktA]).map (fun r => r.2) =
      some [true, true, false] := by
  refine ⟨?_, ?_, rfl⟩
  · intro st st2 pkt lim hlim hstep
    by_cases hexcl : exclPasses st.excl pkt
    · rw [qStep, if_pos hexcl, pwfbStep, hlim] at hstep
      cases hkey : combKey st.qfields pkt with
      | none => rw [hkey] at hstep; simp at hstep
      | some key =>
        rw [hkey] at hstep
        refine ⟨key, rfl, ?_⟩
        by_cases hcnt : seenCount (seenBump st.seen key) key > lim
        · cases hval : fieldsVals st.qfields pkt with
          | none => simp [hcnt, hval] at hstep
          | some val => simp [hcnt, hval] at hstep
        · simp [hcnt] at hstep
          rw [← hstep]
          exact Nat.le_of_not_lt hcnt
    · rw [qStep, if_neg hexcl] at hstep
      simp at hstep
  · intro st pkt r hexcl hpw hr2
    cases hval : fieldsVals st.qfields pkt with
    | none =>
      exfalso
      cases hf : st.qfields with
      | nil =>
        rw [hf] at hval
        rw [show fieldsVals [] pkt = some [] from rfl] at hval
        exact Option.noConfusion hval
      | cons f fs =>
        rw [pwfbStep] at hpw
        cases hlim : st.limit with
        | none =>
          rw [hlim] at hpw
          simp at hpw
          rw [← hpw] at hr2
          simp at hr2
        | some lim =>
          rw [hlim] at hpw
          cases hkey : combKey st.qfields pkt with
          | none => rw [hkey] at hpw; simp at hpw
          | some key =>
            rw [combKey, hf] at hkey
            simp at hkey
            rw [hf] at hval
            rw [hval] at hkey
            exact Option.noConfusion hkey
    | some val =>
      refine ⟨val, rfl, ?_⟩
      rw [qStep, if_pos hexcl, hpw]
      simp [hr2, hval]

/-- C7 witness: the first conjunct of `packets_limit_contract` applied at a
concrete invoked step (the second of three identical packets). -/
theorem packets_limit_contract_witness :
    ∃ key, combKey ([] : List String) pktA = some key ∧
      seenCount [(([("f", 1)] : MKey), 2)] key ≤ 2 := by
  have h := packets_limit_contract.1
    ⟨some 2, [], [([("f", 1)], 1)], []⟩
    ⟨some 2, [], [([("f", 1)], 2)], []⟩ pktA 2 rfl (by rfl)
  exact h

end Netcore
